import Mathlib

/-!
Verification development for the meteor mass-index estimation pipeline of the
PP1 Astronomica I (IM) repository.

The repository consists of a data-cleaning notebook (conversion of fixed-width
radar logs, ambiguity filtering, range filtering, consolidation, amplitude
column extraction) and a mass-index estimation core (distribution builder,
ordinary least-squares estimator, temporal aggregator, report formatter).
The cleaning functions are embedded from the notebook code; the estimation
core, whose Python modules are referenced but not present in the checked
sources, is modelled from the specification.

Amplitude samples are embedded as rational numbers (the data are finite
decimals); distribution points and regression statistics live in the reals,
with base-10 logarithms taken as in the specification.
-/

namespace MassIndex

/-- Error taxonomy of the estimation core: a non-positive amplitude reaching
the builder, or fewer than two distinct amplitude values in a window. -/
inductive EstimationError where
  | invalidSample
  | insufficientData
deriving DecidableEq

/-- Descending order on rational amplitudes, used to sort distinct values. -/
def descOrder (a b : ℚ) : Prop := b ≤ a

instance : DecidableRel descOrder := fun a b => inferInstanceAs (Decidable (b ≤ a))

instance : IsTotal ℚ descOrder := ⟨fun a b => le_total b a⟩

instance : IsTrans ℚ descOrder := ⟨fun _ _ _ h h2 => le_trans h2 h⟩

instance : IsAntisymm ℚ descOrder := ⟨fun _ _ h h2 => le_antisymm h2 h⟩

/-- Modelled from the spec: the distinct amplitude values of a window,
sorted in descending order (`DistributionBuilder`, no-binning path). -/
def distinctDesc (amps : List ℚ) : List ℚ :=
  List.insertionSort descOrder amps.dedup

/-- Modelled from the spec: the cumulative count of a value `a`, i.e. the
number of samples with amplitude greater than or equal to `a`. -/
def cumCount (amps : List ℚ) (a : ℚ) : ℕ :=
  (amps.filter (fun s => a ≤ s)).length

/-- Base-10 logarithm, as used for the log-log distribution points. -/
noncomputable def log10 (x : ℝ) : ℝ := Real.logb 10 x

/-- Modelled from the spec: the distribution points of the no-binning path,
one point `(log10 a, log10 (cumulative count of a))` per distinct value `a`,
in descending order of amplitude. -/
noncomputable def buildPoints (amps : List ℚ) : List (ℝ × ℝ) :=
  (distinctDesc amps).map fun a : ℚ => (log10 (a : ℝ), log10 (cumCount amps a : ℝ))

/-- Modelled from the spec: `DistributionBuilder` on the no-binning path.
It rejects windows containing a non-positive amplitude with
`InvalidSampleError`, rejects windows with fewer than two distinct values
with `InsufficientDataError`, and otherwise emits the distribution points.
(The binning path is inactive and its bin-edge rule is unspecified, so it is
not modelled.) -/
noncomputable def buildDistribution (amps : List ℚ) :
    Except EstimationError (List (ℝ × ℝ)) :=
  if ∃ a ∈ amps, a ≤ 0 then .error .invalidSample
  else if amps.dedup.length < 2 then .error .insufficientData
  else .ok (buildPoints amps)

/-- Result of the ordinary least-squares fit over the distribution points. -/
structure RegressionResult where
  slope : ℝ
  intercept : ℝ
  r : ℝ
  rSquared : ℝ
  pValue : ℝ
  stdError : ℝ

/-- Mean of the x-coordinates of a point list. -/
noncomputable def xbar (pts : List (ℝ × ℝ)) : ℝ :=
  (pts.map Prod.fst).sum / pts.length

/-- Mean of the y-coordinates of a point list. -/
noncomputable def ybar (pts : List (ℝ × ℝ)) : ℝ :=
  (pts.map Prod.snd).sum / pts.length

/-- Centered sum of squares in x. -/
noncomputable def sxx (pts : List (ℝ × ℝ)) : ℝ :=
  (pts.map (fun p => (p.1 - xbar pts) ^ 2)).sum

/-- Centered sum of products of x and y deviations. -/
noncomputable def sxy (pts : List (ℝ × ℝ)) : ℝ :=
  (pts.map (fun p => (p.1 - xbar pts) * (p.2 - ybar pts))).sum

/-- Centered sum of squares in y. -/
noncomputable def syy (pts : List (ℝ × ℝ)) : ℝ :=
  (pts.map (fun p => (p.2 - ybar pts) ^ 2)).sum

/-- Modelled from the spec: the least-squares slope. -/
noncomputable def slope (pts : List (ℝ × ℝ)) : ℝ := sxy pts / sxx pts

/-- Modelled from the spec: the least-squares intercept. -/
noncomputable def intercept (pts : List (ℝ × ℝ)) : ℝ :=
  ybar pts - slope pts * xbar pts

/-- Modelled from the spec: the Pearson correlation coefficient. -/
noncomputable def rval (pts : List (ℝ × ℝ)) : ℝ :=
  sxy pts / Real.sqrt (sxx pts * syy pts)

/-- Sum of squared residuals of the fitted line. -/
noncomputable def residSS (pts : List (ℝ × ℝ)) : ℝ :=
  (pts.map (fun p => (p.2 - (slope pts * p.1 + intercept pts)) ^ 2)).sum

/-- Modelled from the spec: the standard error of the slope,
`sqrt(sum of squared residuals / (n-2)) / sqrt(sum of squared x deviations)`. -/
noncomputable def stdError (pts : List (ℝ × ℝ)) : ℝ :=
  Real.sqrt (residSS pts / ((pts.length : ℝ) - 2)) / Real.sqrt (sxx pts)

/-- Modelled from the spec: the two-tailed p-value of the t-statistic
`slope / standard error` with `n - 2` degrees of freedom. The cumulative
distribution function of the Student t distribution is external library code
and is passed in as a parameter `cdf`. -/
noncomputable def pValue (cdf : ℝ → ℝ) (pts : List (ℝ × ℝ)) : ℝ :=
  2 * (1 - cdf |slope pts / stdError pts|)

/-- Modelled from the spec: the full ordinary least-squares fit,
packaging slope, intercept, correlation, coefficient of determination,
p-value and standard error. -/
noncomputable def linregress (cdf : ℝ → ℝ) (pts : List (ℝ × ℝ)) :
    RegressionResult :=
  { slope := slope pts
    intercept := intercept pts
    r := rval pts
    rSquared := rval pts ^ 2
    pValue := pValue cdf pts
    stdError := stdError pts }

/-- Per-window result consumed by the report formatter. -/
structure MassIndexResult where
  massIndex : ℝ
  regression : RegressionResult
  nOriginal : ℕ
  nRegression : ℕ
  binningApplied : Bool

/-- Modelled from the spec: `MassIndexEstimator`. It builds the distribution,
re-validates that at least two points are present, fits the regression and
derives the mass index `s = 1 - slope`. -/
noncomputable def estimate (cdf : ℝ → ℝ) (amps : List ℚ) :
    Except EstimationError MassIndexResult :=
  match buildDistribution amps with
  | .error e => .error e
  | .ok pts =>
    if pts.length < 2 then .error .insufficientData
    else
      let reg := linregress cdf pts
      .ok { massIndex := 1 - reg.slope
            regression := reg
            nOriginal := amps.length
            nRegression := pts.length
            binningApplied := false }

/-- Human-readable reason attached to a skipped window. -/
def reasonString : EstimationError → String
  | .invalidSample => "invalid sample in window"
  | .insufficientData => "insufficient data in window"

/-- A time window handed to the aggregator: a chronological label and the
amplitude samples falling in the window. -/
structure WindowRow where
  label : String
  amps : List ℚ

/-- Modelled from the spec: `TemporalAggregator`. Windows are processed in
chronological order; each success is accumulated into the result series and
each failure is recorded in a parallel skip log with its reason — a failing
window never aborts the batch. -/
noncomputable def aggregate (cdf : ℝ → ℝ) :
    List WindowRow → List (String × MassIndexResult) × List (String × String)
  | [] => ([], [])
  | w :: ws =>
    let rest := aggregate cdf ws
    match estimate cdf w.amps with
    | .ok res => ((w.label, res) :: rest.1, rest.2)
    | .error e => (rest.1, (w.label, reasonString e) :: rest.2)

/-- Qualitative interpretation flag of the goodness of fit. -/
inductive FitQuality where
  | excellent
  | acceptable
  | poor
deriving DecidableEq

/-- Configurable interpretation thresholds (policy constants, injected as
configuration). -/
structure FitThresholds where
  excellent : ℝ
  acceptable : ℝ

/-- The default thresholds of the reference reports: 0.80 and 0.60. -/
noncomputable def defaultThresholds : FitThresholds :=
  { excellent := 0.80, acceptable := 0.60 }

/-- Modelled from the spec: the qualitative interpretation of an R² value
against a threshold configuration. -/
noncomputable def interpret (cfg : FitThresholds) (rsq : ℝ) : FitQuality :=
  if cfg.excellent ≤ rsq then .excellent
  else if cfg.acceptable ≤ rsq then .acceptable
  else .poor

/-- Modelled from the spec: the interpretation flag the report formatter
attaches to a result, computed from the result's R². -/
noncomputable def reportFlag (cfg : FitThresholds) (res : MassIndexResult) :
    FitQuality :=
  interpret cfg res.regression.rSquared

end MassIndex

namespace Limpieza

/-- Keep the values of a row whose column index (starting at `i` for the
head) is not listed in `drops`; this is the row-level effect of dropping
the columns labelled by `drops` from a header-less table. -/
def dropAt (drops : List ℕ) : ℕ → List ℚ → List ℚ
  | _, [] => []
  | i, v :: vs =>
    if i ∈ drops then dropAt drops (i + 1) vs
    else v :: dropAt drops (i + 1) vs

/-- Row-level effect of dropping columns 2 (file id), 9 (ambig) and
12 (IREX), as in the notebook's ambiguity filter. -/
def dropAmbigCols (r : List ℚ) : List ℚ := dropAt [2, 9, 12] 0 r

/-- The notebook's `filtro_ambig` on one table: keep the rows whose value in
column 9 equals 1, then drop columns 2, 9 and 12. -/
def filtro_ambig (table : List (List ℚ)) : List (List ℚ) :=
  (table.filter (fun r => decide (r.getD 9 0 = 1))).map dropAmbigCols

/-- The notebook's `dejar_solo_ultima_columna` on one table: select the
column at position 10 of every row (the `amax` column of the 14-column
consolidated schema). -/
def dejar_solo_ultima_columna (table : List (List ℚ)) : List (List ℚ) :=
  table.map (fun r => [r.getD 10 0])

end Limpieza

namespace MassIndex

theorem buildDistribution_ok (amps : List ℚ) (h1 : ∀ a ∈ amps, 0 < a)
    (h2 : 2 ≤ amps.dedup.length) :
    buildDistribution amps = .ok (buildPoints amps) := by
  have hno : ¬ ∃ a ∈ amps, a ≤ 0 := by
    rintro ⟨a, ha, h0⟩
    exact absurd h0 (not_le.mpr (h1 a ha))
  rw [buildDistribution, if_neg hno, if_neg (by omega)]

theorem buildPoints_length (amps : List ℚ) :
    (buildPoints amps).length = amps.dedup.length := by
  rw [buildPoints, List.length_map, distinctDesc, List.length_insertionSort]

theorem estimate_ok (cdf : ℝ → ℝ) (amps : List ℚ) (h1 : ∀ a ∈ amps, 0 < a)
    (h2 : 2 ≤ amps.dedup.length) :
    estimate cdf amps = .ok
      { massIndex := 1 - slope (buildPoints amps)
        regression := linregress cdf (buildPoints amps)
        nOriginal := amps.length
        nRegression := (buildPoints amps).length
        binningApplied := false } := by
  have hlen : ¬ (buildPoints amps).length < 2 := by
    rw [buildPoints_length]; omega
  unfold estimate
  rw [buildDistribution_ok amps h1 h2]
  simp only [hlen, if_false]
  rfl

/-- C3: for every amplitude window with all-positive samples but fewer than 2
distinct amplitude values — empty, a single distinct value, or all samples
equal — the distribution builder fails with the insufficient-data error, and
the estimator (which re-validates) fails the same way. -/
theorem insufficientData_of_lt_two_distinct (cdf : ℝ → ℝ) (amps : List ℚ)
    (h1 : ∀ a ∈ amps, 0 < a) (h2 : amps.dedup.length < 2) :
    buildDistribution amps = .error .insufficientData
      ∧ estimate cdf amps = .error .insufficientData := by
  have hno : ¬ ∃ a ∈ amps, a ≤ 0 := by
    rintro ⟨a, ha, h0⟩
    exact absurd h0 (not_le.mpr (h1 a ha))
  have hbd : buildDistribution amps = .error .insufficientData := by
    rw [buildDistribution, if_neg hno, if_pos h2]
  refine ⟨hbd, ?_⟩
  unfold estimate
  rw [hbd]

theorem insufficientData_of_lt_two_distinct_witness :
    ((∀ a ∈ ([] : List ℚ), 0 < a) ∧ ([] : List ℚ).dedup.length < 2
      ∧ buildDistribution [] = .error .insufficientData
      ∧ estimate (fun _ => 1 / 2) [] = .error .insufficientData)
    ∧ ((∀ a ∈ ([7] : List ℚ), 0 < a) ∧ ([7] : List ℚ).dedup.length < 2
      ∧ buildDistribution [7] = .error .insufficientData
      ∧ estimate (fun _ => 1 / 2) [7] = .error .insufficientData)
    ∧ ((∀ a ∈ ([500, 500, 500] : List ℚ), 0 < a)
      ∧ ([500, 500, 500] : List ℚ).dedup.length < 2
      ∧ buildDistribution [500, 500, 500] = .error .insufficientData
      ∧ estimate (fun _ => 1 / 2) [500, 500, 500] = .error .insufficientData) :=
  ⟨⟨by decide, by decide,
      (insufficientData_of_lt_two_distinct (fun _ => 1 / 2) [] (by decide) (by decide)).1,
      (insufficientData_of_lt_two_distinct (fun _ => 1 / 2) [] (by decide) (by decide)).2⟩,
    ⟨by decide, by decide,
      (insufficientData_of_lt_two_distinct (fun _ => 1 / 2) [7] (by decide) (by decide)).1,
      (insufficientData_of_lt_two_distinct (fun _ => 1 / 2) [7] (by decide) (by decide)).2⟩,
    by decide, by decide,
    (insufficientData_of_lt_two_distinct (fun _ => 1 / 2) [500, 500, 500] (by decide) (by decide)).1,
    (insufficientData_of_lt_two_distinct (fun _ => 1 / 2) [500, 500, 500] (by decide) (by decide)).2⟩

/-- C8: an input containing a non-positive amplitude makes the distribution
builder fail with the invalid-sample error instead of silently dropping the
offending samples or producing undefined logarithms. -/
theorem invalidSample_of_nonpositive (amps : List ℚ) (h : ∃ a ∈ amps, a ≤ 0) :
    buildDistribution amps = .error .invalidSample := by
  rw [buildDistribution, if_pos h]

theorem invalidSample_of_nonpositive_witness :
    (∃ a ∈ ([-1, 5] : List ℚ), a ≤ 0)
      ∧ buildDistribution [-1, 5] = .error .invalidSample :=
  ⟨by decide, invalidSample_of_nonpositive [-1, 5] (by decide)⟩

end MassIndex

namespace MassIndex

theorem interpret_cases (cfg : FitThresholds) (rsq : ℝ) :
    (interpret cfg rsq = .excellent ↔ cfg.excellent ≤ rsq)
      ∧ (interpret cfg rsq = .acceptable ↔ cfg.acceptable ≤ rsq ∧ rsq < cfg.excellent)
      ∧ (interpret cfg rsq = .poor ↔ rsq < cfg.acceptable ∧ rsq < cfg.excellent) := by
  unfold interpret
  split_ifs with hE hA
  · exact ⟨iff_of_true rfl hE,
      iff_of_false (fun h => nomatch h) (fun hc => absurd hE (not_le.mpr hc.2)),
      iff_of_false (fun h => nomatch h) (fun hc => absurd hE (not_le.mpr hc.2))⟩
  · exact ⟨iff_of_false (fun h => nomatch h) hE,
      iff_of_true rfl ⟨hA, not_le.mp hE⟩,
      iff_of_false (fun h => nomatch h) (fun hc => absurd hA (not_le.mpr hc.1))⟩
  · exact ⟨iff_of_false (fun h => nomatch h) hE,
      iff_of_false (fun h => nomatch h) (fun hc => absurd hc.1 hA),
      iff_of_true rfl ⟨not_le.mp hA, not_le.mp hE⟩⟩

/-- C6: the qualitative interpretation flag attached to a report is a
function of R² alone, the thresholds are configurable data rather than
hard-coded, and with the default configuration R² at least 0.80 is flagged
excellent, R² in [0.60, 0.80) acceptable, and R² below 0.60 poor. -/
theorem reportFlag_thresholds :
    (∀ (cfg : FitThresholds) (res : MassIndexResult),
        reportFlag cfg res = interpret cfg res.regression.rSquared)
    ∧ (∀ (cfg : FitThresholds) (res res2 : MassIndexResult),
        res.regression.rSquared = res2.regression.rSquared →
          reportFlag cfg res = reportFlag cfg res2)
    ∧ (∀ (cfg : FitThresholds) (rsq : ℝ),
        (interpret cfg rsq = .excellent ↔ cfg.excellent ≤ rsq)
        ∧ (interpret cfg rsq = .acceptable ↔
            cfg.acceptable ≤ rsq ∧ rsq < cfg.excellent)
        ∧ (interpret cfg rsq = .poor ↔
            rsq < cfg.acceptable ∧ rsq < cfg.excellent))
    ∧ (∀ rsq : ℝ,
        (interpret defaultThresholds rsq = .excellent ↔ (0.80 : ℝ) ≤ rsq)
        ∧ (interpret defaultThresholds rsq = .acceptable ↔
            (0.60 : ℝ) ≤ rsq ∧ rsq < (0.80 : ℝ))
        ∧ (interpret defaultThresholds rsq = .poor ↔ rsq < (0.60 : ℝ))) := by
  refine ⟨fun cfg res => rfl,
    fun cfg res res2 h => by rw [reportFlag, reportFlag, h],
    interpret_cases, fun rsq => ?_⟩
  obtain ⟨hE, hA, hP⟩ := interpret_cases defaultThresholds rsq
  refine ⟨hE, hA, hP.trans ?_⟩
  constructor
  · exact fun hc => hc.1
  · intro hc
    refine ⟨hc, ?_⟩
    have : (0.60 : ℝ) ≤ (0.80 : ℝ) := by norm_num
    calc rsq < (0.60 : ℝ) := hc
      _ ≤ (0.80 : ℝ) := this

/-- C7: in a batch run, every window is attempted; a failing window is
recorded in the skip log with a human-readable reason instead of aborting
the run, successes are accumulated in chronological (input) order, and every
window appears either as a result row or as a skipped row. -/
theorem aggregate_partial_failure (cdf : ℝ → ℝ) (ws : List WindowRow) :
    (aggregate cdf ws).1 = ws.filterMap (fun w =>
        match estimate cdf w.amps with
        | .ok res => some (w.label, res)
        | .error _ => none)
    ∧ (aggregate cdf ws).2 = ws.filterMap (fun w =>
        match estimate cdf w.amps with
        | .ok _ => none
        | .error e => some (w.label, reasonString e))
    ∧ (aggregate cdf ws).1.length + (aggregate cdf ws).2.length = ws.length
    ∧ ∀ w ∈ ws, (∃ res, (w.label, res) ∈ (aggregate cdf ws).1)
        ∨ (∃ s, (w.label, s) ∈ (aggregate cdf ws).2) := by
  induction ws with
  | nil => exact ⟨rfl, rfl, rfl, fun w hw => absurd hw (List.not_mem_nil w)⟩
  | cons w ws ih =>
    obtain ⟨ih1, ih2, ih3, ih4⟩ := ih
    cases hw : estimate cdf w.amps with
    | ok res =>
      refine ⟨?_, ?_, ?_, ?_⟩
      · simp only [aggregate, hw, List.filterMap_cons]
        rw [ih1]
      · simp only [aggregate, hw, List.filterMap_cons]
        rw [ih2]
      · simp only [aggregate, hw, List.length_cons]
        omega
      · intro w2 hw2
        rcases List.mem_cons.mp hw2 with h | h
        · subst h
          exact Or.inl ⟨res, by simp [aggregate, hw]⟩
        · rcases ih4 w2 h with ⟨r, hr⟩ | ⟨s, hs⟩
          · exact Or.inl ⟨r, by simp only [aggregate, hw]; exact List.mem_cons_of_mem _ hr⟩
          · exact Or.inr ⟨s, by simp only [aggregate, hw]; exact hs⟩
    | error e =>
      refine ⟨?_, ?_, ?_, ?_⟩
      · simp only [aggregate, hw, List.filterMap_cons]
        rw [ih1]
      · simp only [aggregate, hw, List.filterMap_cons]
        rw [ih2]
      · simp only [aggregate, hw, List.length_cons]
        omega
      · intro w2 hw2
        rcases List.mem_cons.mp hw2 with h | h
        · subst h
          exact Or.inr ⟨reasonString e, by simp [aggregate, hw]⟩
        · rcases ih4 w2 h with ⟨r, hr⟩ | ⟨s, hs⟩
          · exact Or.inl ⟨r, by simp only [aggregate, hw]; exact hr⟩
          · exact Or.inr ⟨s, by simp only [aggregate, hw]; exact List.mem_cons_of_mem _ hs⟩

end MassIndex

namespace MassIndex

theorem distinctDesc_perm (amps1 amps2 : List ℚ) (h : amps1.Perm amps2) :
    distinctDesc amps1 = distinctDesc amps2 := by
  apply List.eq_of_perm_of_sorted (r := descOrder)
  · exact (List.perm_insertionSort descOrder amps1.dedup).trans
      (h.dedup.trans (List.perm_insertionSort descOrder amps2.dedup).symm)
  · exact List.sorted_insertionSort descOrder amps1.dedup
  · exact List.sorted_insertionSort descOrder amps2.dedup

theorem cumCount_perm (amps1 amps2 : List ℚ) (h : amps1.Perm amps2) (a : ℚ) :
    cumCount amps1 a = cumCount amps2 a :=
  (h.filter (fun s => decide (a ≤ s))).length_eq

theorem buildPoints_perm (amps1 amps2 : List ℚ) (h : amps1.Perm amps2) :
    buildPoints amps1 = buildPoints amps2 := by
  rw [buildPoints, buildPoints, distinctDesc_perm amps1 amps2 h]
  apply List.map_congr_left
  intro a _
  rw [cumCount_perm amps1 amps2 h]

theorem buildDistribution_perm (amps1 amps2 : List ℚ) (h : amps1.Perm amps2) :
    buildDistribution amps1 = buildDistribution amps2 := by
  rw [buildDistribution, buildDistribution]
  by_cases hA : ∃ a ∈ amps1, a ≤ 0
  · have hB : ∃ a ∈ amps2, a ≤ 0 := by
      obtain ⟨a, ha, h0⟩ := hA
      exact ⟨a, h.subset ha, h0⟩
    rw [if_pos hA, if_pos hB]
  · have hB : ¬ ∃ a ∈ amps2, a ≤ 0 := by
      intro hB
      obtain ⟨a, ha, h0⟩ := hB
      exact hA ⟨a, h.symm.subset ha, h0⟩
    rw [if_neg hA, if_neg hB, h.dedup.length_eq, buildPoints_perm amps1 amps2 h]

/-- C5: the estimation is deterministic and order-independent: on any
permutation of the input amplitude sequence the estimator yields the same
result as on the original sequence. -/
theorem estimate_perm (cdf : ℝ → ℝ) (amps1 amps2 : List ℚ)
    (h : amps1.Perm amps2) :
    estimate cdf amps1 = estimate cdf amps2 := by
  unfold estimate
  rw [buildDistribution_perm amps1 amps2 h, h.length_eq]

theorem estimate_perm_witness :
    (([3, 1, 2, 2] : List ℚ).Perm [2, 2, 1, 3])
      ∧ estimate (fun _ => 1 / 2) [3, 1, 2, 2] = estimate (fun _ => 1 / 2) [2, 2, 1, 3] :=
  ⟨by decide, estimate_perm (fun _ => 1 / 2) [3, 1, 2, 2] [2, 2, 1, 3] (by decide)⟩

end MassIndex

namespace Limpieza

theorem dropAt_eq (ds : List ℕ) (r : List ℚ) : ∀ i : ℕ,
    dropAt ds i r
      = ((List.range r.length).filter (fun j => decide ((i + j) ∉ ds))).map
          (fun j => r.getD j 0) := by
  induction r with
  | nil => intro i; simp [dropAt]
  | cons v vs ih =>
    intro i
    have hshift : ((List.range vs.length).map Nat.succ).filter
          (fun j => decide ((i + j) ∉ ds))
        = ((List.range vs.length).filter
            (fun j => decide ((i + 1 + j) ∉ ds))).map Nat.succ := by
      rw [List.filter_map]
      congr 1
      apply List.filter_congr
      intro j _
      simp only [Function.comp_apply]
      have hj : i + Nat.succ j = i + 1 + j := by omega
      rw [hj]
    have hcomp : ((fun j => (v :: vs).getD j 0) ∘ Nat.succ)
        = fun j => vs.getD j 0 := by
      funext j
      simp [List.getD_cons_succ]
    rw [List.length_cons, List.range_succ_eq_map, List.filter_cons]
    by_cases hm : i ∈ ds
    · have h0 : (decide ((i + 0) ∉ ds)) = false := by simp [hm]
      rw [h0]
      simp only [Bool.false_eq_true, if_false]
      rw [hshift, List.map_map, hcomp]
      simp only [dropAt, if_pos hm]
      exact ih (i + 1)
    · have h0 : (decide ((i + 0) ∉ ds)) = true := by simp [hm]
      rw [h0]
      simp only [if_true]
      rw [hshift, List.map_cons, List.map_map, hcomp]
      simp only [dropAt, if_neg hm, List.getD_cons_zero]
      rw [ih (i + 1)]

/-- C10: the ambiguity filter keeps exactly the rows whose value in column 9
equals 1, in their original relative order and with no rows added, and on
each kept row it removes exactly the columns at positions 2, 9 and 12,
leaving every other column value unchanged and in order. -/
theorem filtro_ambig_spec (table : List (List ℚ)) :
    filtro_ambig table
      = (table.filter (fun r => decide (r.getD 9 0 = 1))).map dropAmbigCols
    ∧ (∀ r : List ℚ, dropAmbigCols r
        = ((List.range r.length).filter
            (fun j => decide (j ≠ 2 ∧ j ≠ 9 ∧ j ≠ 12))).map (fun j => r.getD j 0))
    ∧ (filtro_ambig table).length
        = table.countP (fun r => decide (r.getD 9 0 = 1)) := by
  refine ⟨rfl, ?_, ?_⟩
  · intro r
    rw [dropAmbigCols, dropAt_eq]
    congr 1
    apply List.filter_congr
    intro j _
    have hiff : ((0 + j) ∉ ([2, 9, 12] : List ℕ)) ↔ (j ≠ 2 ∧ j ≠ 9 ∧ j ≠ 12) := by
      simp [not_or]
    exact decide_eq_decide.mpr hiff
  · rw [filtro_ambig, List.length_map, List.countP_eq_length_filter]

end Limpieza

namespace Limpieza

/-- C9: on any table whose rows have at least 11 columns, the amplitude
extraction step outputs exactly the column at position 10 (the eleventh
column, `amax` in the 14-column consolidated schema), one value per input
row in the original row order — and not the table's last column, despite the
function's name and comment. -/
theorem dejar_solo_ultima_columna_spec (table : List (List ℚ))
    (h : ∀ r ∈ table, 11 ≤ r.length) :
    (dejar_solo_ultima_columna table).length = table.length
    ∧ (∀ i, i < table.length →
        (dejar_solo_ultima_columna table).getD i []
          = [(table.getD i []).getD 10 0])
    ∧ ((∃ r ∈ table, r.getD 10 0 ≠ r.getD (r.length - 1) 0) →
        dejar_solo_ultima_columna table
          ≠ table.map (fun r => [r.getD (r.length - 1) 0])) := by
  refine ⟨List.length_map _ _, ?_, ?_⟩
  · intro i hi
    have hi2 : i < (dejar_solo_ultima_columna table).length := by
      rw [dejar_solo_ultima_columna, List.length_map]
      exact hi
    rw [List.getD_eq_getElem _ _ hi2, List.getD_eq_getElem _ _ hi]
    simp [dejar_solo_ultima_columna]
  · rintro ⟨r, hr, hne⟩ heq
    obtain ⟨i, hi, hri⟩ := List.getElem_of_mem hr
    have h1 : (dejar_solo_ultima_columna table).getD i [] = [r.getD 10 0] := by
      rw [List.getD_eq_getElem _ _ (by
        rw [dejar_solo_ultima_columna, List.length_map]; exact hi)]
      simp [dejar_solo_ultima_columna, hri]
    have h2 : (table.map (fun r => [r.getD (r.length - 1) 0])).getD i []
        = [r.getD (r.length - 1) 0] := by
      rw [List.getD_eq_getElem _ _ (by rw [List.length_map]; exact hi)]
      simp [hri]
    rw [heq, h2] at h1
    have hcontra : r.getD (r.length - 1) 0 = r.getD 10 0 := by
      simpa using h1
    exact hne hcontra.symm

end Limpieza

namespace Limpieza

theorem dejar_solo_ultima_columna_spec_witness :
    (∀ r ∈ ([[0, 1, 2, 3, 4, 5, 6, 7, 8, 9, 42, 11, 12, 13]] : List (List ℚ)),
        11 ≤ r.length)
    ∧ ((dejar_solo_ultima_columna
          [[0, 1, 2, 3, 4, 5, 6, 7, 8, 9, 42, 11, 12, 13]]).length
        = ([[0, 1, 2, 3, 4, 5, 6, 7, 8, 9, 42, 11, 12, 13]] : List (List ℚ)).length
      ∧ (∀ i, i < ([[0, 1, 2, 3, 4, 5, 6, 7, 8, 9, 42, 11, 12, 13]] :
            List (List ℚ)).length →
          (dejar_solo_ultima_columna
            [[0, 1, 2, 3, 4, 5, 6, 7, 8, 9, 42, 11, 12, 13]]).getD i []
            = [(([[0, 1, 2, 3, 4, 5, 6, 7, 8, 9, 42, 11, 12, 13]] :
                List (List ℚ)).getD i []).getD 10 0])
      ∧ ((∃ r ∈ ([[0, 1, 2, 3, 4, 5, 6, 7, 8, 9, 42, 11, 12, 13]] :
            List (List ℚ)), r.getD 10 0 ≠ r.getD (r.length - 1) 0) →
          dejar_solo_ultima_columna
            [[0, 1, 2, 3, 4, 5, 6, 7, 8, 9, 42, 11, 12, 13]]
            ≠ ([[0, 1, 2, 3, 4, 5, 6, 7, 8, 9, 42, 11, 12, 13]] :
                List (List ℚ)).map (fun r => [r.getD (r.length - 1) 0]))) :=
  ⟨by decide,
    dejar_solo_ultima_columna_spec
      [[0, 1, 2, 3, 4, 5, 6, 7, 8, 9, 42, 11, 12, 13]] (by decide)⟩

end Limpieza

namespace MassIndex

theorem sum_map_getD {α : Type} (f : α → ℝ) (d : α) (l : List α) :
    (l.map f).sum = ∑ i in Finset.range l.length, f (l.getD i d) := by
  induction l with
  | nil => simp
  | cons v vs ih =>
    rw [List.map_cons, List.sum_cons, List.length_cons, Finset.sum_range_succ']
    simp only [List.getD_cons_succ, List.getD_cons_zero]
    rw [ih]
    ring

theorem centered_sum_eq (n : ℕ) (X Y : ℕ → ℝ) (a b : ℝ) :
    ∑ i in Finset.range n, (X i - a) * (Y i - b)
      = (∑ i in Finset.range n, X i * Y i) - a * (∑ i in Finset.range n, Y i)
        - b * (∑ i in Finset.range n, X i) + n * (a * b) := by
  induction n with
  | zero => simp
  | succ m ih =>
    rw [Finset.sum_range_succ, Finset.sum_range_succ, Finset.sum_range_succ,
      Finset.sum_range_succ, ih]
    push_cast
    ring

theorem double_sum_identity (n : ℕ) (X Y : ℕ → ℝ) :
    ∑ i in Finset.range n, ∑ j in Finset.range n, (X i - X j) * (Y i - Y j)
      = 2 * ((n : ℝ) * (∑ i in Finset.range n, X i * Y i)
          - (∑ i in Finset.range n, X i) * (∑ i in Finset.range n, Y i)) := by
  have hinner : ∀ i, ∑ j in Finset.range n, (X i - X j) * (Y i - Y j)
      = (n : ℝ) * (X i * Y i) - X i * (∑ j in Finset.range n, Y j)
        - (∑ j in Finset.range n, X j) * Y i
        + ∑ j in Finset.range n, X j * Y j := by
    intro i
    have hexp : ∀ j, (X i - X j) * (Y i - Y j)
        = X i * Y i - X i * Y j - X j * Y i + X j * Y j := by
      intro j; ring
    rw [Finset.sum_congr rfl (fun j _ => hexp j)]
    simp only [Finset.sum_add_distrib, Finset.sum_sub_distrib, ← Finset.mul_sum,
      ← Finset.sum_mul, Finset.sum_const, Finset.card_range, nsmul_eq_mul]
    ring
  rw [Finset.sum_congr rfl (fun i _ => hinner i)]
  simp only [Finset.sum_add_distrib, Finset.sum_sub_distrib, ← Finset.mul_sum,
    ← Finset.sum_mul, Finset.sum_const, Finset.card_range, nsmul_eq_mul]
  ring

theorem neg_div_helper (S1 S2 S3 : ℝ) (n : ℝ) (hn : 0 < n)
    (h : n * S3 - S1 * S2 < 0) :
    S3 - S1 / n * S2 - S2 / n * S1 + n * (S1 / n * (S2 / n)) < 0 := by
  have heq : S3 - S1 / n * S2 - S2 / n * S1 + n * (S1 / n * (S2 / n))
      = (n * S3 - S1 * S2) / n := by
    field_simp
    ring
  rw [heq]
  exact div_neg_of_neg_of_pos h hn

theorem sum_centered_mul_neg (n : ℕ) (hn : 2 ≤ n) (X Y : ℕ → ℝ)
    (hanti : ∀ i j, i < n → j < n → i < j → X j < X i ∧ Y i < Y j) :
    ∑ i in Finset.range n, (X i - (∑ j in Finset.range n, X j) / n)
        * (Y i - (∑ j in Finset.range n, Y j) / n) < 0 := by
  have hn0 : (0 : ℝ) < n := by
    have h2 : (2 : ℝ) ≤ (n : ℝ) := by exact_mod_cast hn
    linarith
  have hD : ∑ i in Finset.range n, ∑ j in Finset.range n,
      (X i - X j) * (Y i - Y j) < 0 := by
    rw [← Finset.sum_product' (Finset.range n) (Finset.range n)
      (fun i j => (X i - X j) * (Y i - Y j))]
    calc ∑ p in Finset.range n ×ˢ Finset.range n,
          (X p.1 - X p.2) * (Y p.1 - Y p.2)
        < ∑ _p in Finset.range n ×ˢ Finset.range n, (0 : ℝ) := by
          apply Finset.sum_lt_sum
          · rintro ⟨i, j⟩ hij
            simp only [Finset.mem_product, Finset.mem_range] at hij
            rcases lt_trichotomy i j with h | h | h
            · obtain ⟨hx, hy⟩ := hanti i j hij.1 hij.2 h
              have hneg : (X i - X j) * (Y i - Y j) < 0 :=
                mul_neg_of_pos_of_neg (by linarith) (by linarith)
              linarith
            · subst h
              simp
            · obtain ⟨hx, hy⟩ := hanti j i hij.2 hij.1 h
              have hneg : (X i - X j) * (Y i - Y j) < 0 :=
                mul_neg_of_neg_of_pos (by linarith) (by linarith)
              linarith
          · refine ⟨(0, 1), ?_, ?_⟩
            · simp only [Finset.mem_product, Finset.mem_range]
              omega
            · obtain ⟨hx, hy⟩ := hanti 0 1 (by omega) (by omega) (by omega)
              exact mul_neg_of_pos_of_neg (by linarith) (by linarith)
      _ = 0 := Finset.sum_const_zero
  have hkey : (n : ℝ) * (∑ i in Finset.range n, X i * Y i)
      - (∑ i in Finset.range n, X i) * (∑ i in Finset.range n, Y i) < 0 := by
    rw [double_sum_identity n X Y] at hD
    linarith
  rw [centered_sum_eq n X Y ((∑ j in Finset.range n, X j) / n)
    ((∑ j in Finset.range n, Y j) / n)]
  exact neg_div_helper _ _ _ _ hn0 hkey

theorem sum_sq_dev_pos (n : ℕ) (hn : 2 ≤ n) (X : ℕ → ℝ) (hne : X 1 < X 0) :
    0 < ∑ i in Finset.range n, (X i - (∑ j in Finset.range n, X j) / n) ^ 2 := by
  have hex : ∃ k, k < n ∧ X k - (∑ j in Finset.range n, X j) / n ≠ 0 := by
    by_cases hx : X 0 - (∑ j in Finset.range n, X j) / n = 0
    · refine ⟨1, by omega, ?_⟩
      intro hz
      have h01 : X 0 = X 1 := by linarith
      linarith
    · exact ⟨0, by omega, hx⟩
  obtain ⟨k, hk, hkz⟩ := hex
  apply Finset.sum_pos'
  · intro i _
    exact sq_nonneg _
  · exact ⟨k, Finset.mem_range.mpr hk, pow_two_pos_of_ne_zero hkz⟩

end MassIndex

namespace MassIndex

theorem xbar_eq (pts : List (ℝ × ℝ)) :
    xbar pts
      = (∑ j in Finset.range pts.length, (pts.getD j (0, 0)).1) / pts.length := by
  rw [xbar, sum_map_getD Prod.fst (0, 0)]

theorem ybar_eq (pts : List (ℝ × ℝ)) :
    ybar pts
      = (∑ j in Finset.range pts.length, (pts.getD j (0, 0)).2) / pts.length := by
  rw [ybar, sum_map_getD Prod.snd (0, 0)]

theorem pairwise_getD (pts : List (ℝ × ℝ)) {R : ℝ × ℝ → ℝ × ℝ → Prop}
    (hpw : pts.Pairwise R) :
    ∀ i j, i < pts.length → j < pts.length → i < j →
      R (pts.getD i (0, 0)) (pts.getD j (0, 0)) := by
  intro i j hi hj hij
  rw [List.getD_eq_get _ _ hi, List.getD_eq_get _ _ hj]
  exact List.pairwise_iff_get.mp hpw ⟨i, hi⟩ ⟨j, hj⟩ hij

theorem sxy_neg (pts : List (ℝ × ℝ)) (h2 : 2 ≤ pts.length)
    (hpw : pts.Pairwise (fun p q => q.1 < p.1 ∧ p.2 < q.2)) :
    sxy pts < 0 := by
  have hanti : ∀ i j, i < pts.length → j < pts.length → i < j →
      (pts.getD j (0, 0)).1 < (pts.getD i (0, 0)).1
        ∧ (pts.getD i (0, 0)).2 < (pts.getD j (0, 0)).2 :=
    pairwise_getD pts hpw
  rw [sxy, sum_map_getD (fun p => (p.1 - xbar pts) * (p.2 - ybar pts)) (0, 0)]
  simp only [xbar_eq, ybar_eq]
  exact sum_centered_mul_neg pts.length h2 _ _ hanti

theorem sxx_pos (pts : List (ℝ × ℝ)) (h2 : 2 ≤ pts.length)
    (hpw : pts.Pairwise (fun p q => q.1 < p.1)) :
    0 < sxx pts := by
  have h10 : (pts.getD 1 (0, 0)).1 < (pts.getD 0 (0, 0)).1 :=
    pairwise_getD pts hpw 0 1 (by omega) (by omega) (by omega)
  rw [sxx, sum_map_getD (fun p => (p.1 - xbar pts) ^ 2) (0, 0)]
  simp only [xbar_eq]
  exact sum_sq_dev_pos pts.length h2 _ h10

theorem slope_neg (pts : List (ℝ × ℝ)) (h2 : 2 ≤ pts.length)
    (hpw : pts.Pairwise (fun p q => q.1 < p.1 ∧ p.2 < q.2)) :
    slope pts < 0 := by
  rw [slope]
  exact div_neg_of_neg_of_pos (sxy_neg pts h2 hpw)
    (sxx_pos pts h2 (hpw.imp fun h => h.1))

theorem distinctDesc_pairwise (amps : List ℚ) :
    (distinctDesc amps).Pairwise (fun a b => b < a) := by
  have hs : (distinctDesc amps).Sorted (· ≥ ·) :=
    List.sorted_insertionSort descOrder amps.dedup
  have hn : (distinctDesc amps).Nodup :=
    ((List.perm_insertionSort descOrder amps.dedup).nodup_iff).mpr
      (List.nodup_dedup amps)
  exact List.Sorted.gt_of_ge hs hn

theorem mem_distinctDesc (amps : List ℚ) (a : ℚ) :
    a ∈ distinctDesc amps ↔ a ∈ amps := by
  rw [distinctDesc, (List.perm_insertionSort descOrder amps.dedup).mem_iff,
    List.mem_dedup]

theorem cumCount_pos (amps : List ℚ) (a : ℚ) (ha : a ∈ amps) :
    0 < cumCount amps a := by
  rw [cumCount]
  exact List.length_pos_of_mem (List.mem_filter.mpr ⟨ha, by simp⟩)

theorem length_filter_mono (l : List ℚ) (p q : ℚ → Bool)
    (hmono : ∀ s ∈ l, p s = true → q s = true) :
    (l.filter p).length ≤ (l.filter q).length := by
  induction l with
  | nil => simp
  | cons v vs ih =>
    have ih2 := ih (fun s hs => hmono s (List.mem_cons_of_mem v hs))
    rw [List.filter_cons, List.filter_cons]
    by_cases hp : p v = true
    · rw [if_pos hp, if_pos (hmono v (List.mem_cons_self v vs) hp)]
      simpa using ih2
    · rw [if_neg (by simp [hp])]
      by_cases hq : q v = true
      · rw [if_pos hq, List.length_cons]
        exact Nat.le_succ_of_le ih2
      · rw [if_neg (by simp [hq])]
        exact ih2

theorem length_filter_lt (l : List ℚ) (p q : ℚ → Bool)
    (hmono : ∀ s ∈ l, p s = true → q s = true)
    (x : ℚ) (hx : x ∈ l) (hqx : q x = true) (hpx : p x = false) :
    (l.filter p).length < (l.filter q).length := by
  induction l with
  | nil => cases hx
  | cons v vs ih =>
    have hmono2 : ∀ s ∈ vs, p s = true → q s = true :=
      fun s hs => hmono s (List.mem_cons_of_mem v hs)
    rw [List.filter_cons, List.filter_cons]
    rcases List.mem_cons.mp hx with hxv | hxvs
    · subst hxv
      rw [if_neg (by simp [hpx]), if_pos hqx, List.length_cons]
      exact Nat.lt_succ_of_le (length_filter_mono vs p q hmono2)
    · have ihs := ih hmono2 hxvs
      by_cases hp : p v = true
      · rw [if_pos hp, if_pos (hmono v (List.mem_cons_self v vs) hp)]
        simpa using ihs
      · rw [if_neg (by simp [hp])]
        by_cases hq : q v = true
        · rw [if_pos hq, List.length_cons]
          exact Nat.lt_succ_of_lt ihs
        · rw [if_neg (by simp [hq])]
          exact ihs

theorem cumCount_lt (amps : List ℚ) (a b : ℚ) (hb : b ∈ amps) (hba : b < a) :
    cumCount amps a < cumCount amps b := by
  rw [cumCount, cumCount]
  apply length_filter_lt amps _ _ ?_ b hb ?_ ?_
  · intro s _ hs
    simp only [decide_eq_true_eq] at hs ⊢
    linarith
  · simp
  · rw [decide_eq_false_iff_not]
    exact not_le.mpr hba

theorem buildPoints_pairwise (amps : List ℚ) (hpos : ∀ a ∈ amps, 0 < a) :
    (buildPoints amps).Pairwise (fun p q => q.1 < p.1 ∧ p.2 < q.2) := by
  rw [buildPoints, List.pairwise_map]
  refine List.Pairwise.imp_of_mem ?_ (distinctDesc_pairwise amps)
  intro a b ha hb hba
  have haA : a ∈ amps := (mem_distinctDesc amps a).mp ha
  have hbA : b ∈ amps := (mem_distinctDesc amps b).mp hb
  have hb0 : 0 < b := hpos b hbA
  constructor
  · apply Real.logb_lt_logb (by norm_num)
    · exact_mod_cast hb0
    · exact_mod_cast hba
  · apply Real.logb_lt_logb (by norm_num)
    · exact_mod_cast cumCount_pos amps a haA
    · exact_mod_cast cumCount_lt amps a b hbA hba

/-- C1: on every window the estimator accepts (all-positive samples, at
least two distinct values — the inputs whose distributions reach the
estimator), the returned mass index equals 1 minus the fitted slope, the
fitted slope is negative, and the mass index is greater than 1. -/
theorem estimate_massIndex (cdf : ℝ → ℝ) (amps : List ℚ)
    (h1 : ∀ a ∈ amps, 0 < a) (h2 : 2 ≤ amps.dedup.length) :
    ∃ res, estimate cdf amps = .ok res
      ∧ res.massIndex = 1 - res.regression.slope
      ∧ res.regression.slope < 0
      ∧ 1 < res.massIndex := by
  have hlen : 2 ≤ (buildPoints amps).length := by
    rw [buildPoints_length]
    exact h2
  have hsl : slope (buildPoints amps) < 0 :=
    slope_neg _ hlen (buildPoints_pairwise amps h1)
  refine ⟨_, estimate_ok cdf amps h1 h2, rfl, hsl, ?_⟩
  show (1 : ℝ) < 1 - slope (buildPoints amps)
  linarith

theorem estimate_massIndex_witness :
    (∀ a ∈ ([1000, 2000, 2000, 4000, 8000] : List ℚ), 0 < a)
    ∧ 2 ≤ ([1000, 2000, 2000, 4000, 8000] : List ℚ).dedup.length
    ∧ ∃ res, estimate (fun _ => 1 / 2) [1000, 2000, 2000, 4000, 8000] = .ok res
        ∧ res.massIndex = 1 - res.regression.slope
        ∧ res.regression.slope < 0
        ∧ 1 < res.massIndex :=
  ⟨by decide, by decide,
    estimate_massIndex (fun _ => 1 / 2) [1000, 2000, 2000, 4000, 8000]
      (by decide) (by decide)⟩

end MassIndex

namespace MassIndex

theorem sxx_nonneg (pts : List (ℝ × ℝ)) : 0 ≤ sxx pts := by
  apply List.sum_nonneg
  intro x hx
  obtain ⟨p, _, rfl⟩ := List.mem_map.mp hx
  exact sq_nonneg _

theorem syy_nonneg (pts : List (ℝ × ℝ)) : 0 ≤ syy pts := by
  apply List.sum_nonneg
  intro x hx
  obtain ⟨p, _, rfl⟩ := List.mem_map.mp hx
  exact sq_nonneg _

theorem sxy_sq_le (pts : List (ℝ × ℝ)) :
    sxy pts ^ 2 ≤ sxx pts * syy pts := by
  rw [sxy, sxx, syy,
    sum_map_getD (fun p => (p.1 - xbar pts) * (p.2 - ybar pts)) (0, 0),
    sum_map_getD (fun p => (p.1 - xbar pts) ^ 2) (0, 0),
    sum_map_getD (fun p => (p.2 - ybar pts) ^ 2) (0, 0)]
  exact Finset.sum_mul_sq_le_sq_mul_sq (Finset.range pts.length)
    (fun i => (pts.getD i (0, 0)).1 - xbar pts)
    (fun i => (pts.getD i (0, 0)).2 - ybar pts)

theorem rsq_bounds (pts : List (ℝ × ℝ)) :
    0 ≤ rval pts ^ 2 ∧ rval pts ^ 2 ≤ 1 := by
  refine ⟨sq_nonneg _, ?_⟩
  rcases eq_or_lt_of_le (mul_nonneg (sxx_nonneg pts) (syy_nonneg pts)) with h | h
  · rw [rval, ← h, Real.sqrt_zero, div_zero]
    norm_num
  · rw [rval, div_pow, Real.sq_sqrt h.le]
    exact (div_le_one h).mpr (sxy_sq_le pts)

theorem pValue_bounds (cdf : ℝ → ℝ)
    (hcdf : ∀ x, 0 ≤ x → 1 / 2 ≤ cdf x ∧ cdf x ≤ 1) (pts : List (ℝ × ℝ)) :
    0 ≤ pValue cdf pts ∧ pValue cdf pts ≤ 1 := by
  obtain ⟨hl, hu⟩ := hcdf _ (abs_nonneg (slope pts / stdError pts))
  rw [pValue]
  constructor <;> linarith

/-- C4: on every amplitude set with at least two distinct values the
estimator succeeds and returns an R² in [0, 1] and a p-value in [0, 1],
where R² is the square of the correlation coefficient and the p-value is
the two-tailed p-value of the t-statistic slope over slope standard error
(the Student cumulative distribution function with n - 2 degrees of freedom
being external library code, any distribution function is admitted). -/
theorem estimate_stats_bounds (cdf : ℝ → ℝ) (amps : List ℚ)
    (h1 : ∀ a ∈ amps, 0 < a) (h2 : 2 ≤ amps.dedup.length)
    (hcdf : ∀ x, 0 ≤ x → 1 / 2 ≤ cdf x ∧ cdf x ≤ 1) :
    ∃ res, estimate cdf amps = .ok res
      ∧ 0 ≤ res.regression.rSquared ∧ res.regression.rSquared ≤ 1
      ∧ 0 ≤ res.regression.pValue ∧ res.regression.pValue ≤ 1
      ∧ res.regression.rSquared = res.regression.r ^ 2
      ∧ res.regression.pValue
          = 2 * (1 - cdf |res.regression.slope / res.regression.stdError|) := by
  obtain ⟨hr0, hr1⟩ := rsq_bounds (buildPoints amps)
  obtain ⟨hp0, hp1⟩ := pValue_bounds cdf hcdf (buildPoints amps)
  exact ⟨_, estimate_ok cdf amps h1 h2, hr0, hr1, hp0, hp1, rfl, rfl⟩

theorem estimate_stats_bounds_witness :
    (∀ a ∈ ([10, 20] : List ℚ), 0 < a)
    ∧ 2 ≤ ([10, 20] : List ℚ).dedup.length
    ∧ (∀ x : ℝ, 0 ≤ x →
        1 / 2 ≤ (fun _ : ℝ => (1 : ℝ) / 2) x ∧ (fun _ : ℝ => (1 : ℝ) / 2) x ≤ 1)
    ∧ ∃ res, estimate (fun _ : ℝ => (1 : ℝ) / 2) [10, 20] = .ok res
        ∧ 0 ≤ res.regression.rSquared ∧ res.regression.rSquared ≤ 1
        ∧ 0 ≤ res.regression.pValue ∧ res.regression.pValue ≤ 1
        ∧ res.regression.rSquared = res.regression.r ^ 2
        ∧ res.regression.pValue
            = 2 * (1 - (fun _ : ℝ => (1 : ℝ) / 2)
                |res.regression.slope / res.regression.stdError|) :=
  ⟨by decide, by decide, by norm_num,
    estimate_stats_bounds (fun _ : ℝ => (1 : ℝ) / 2) [10, 20]
      (by decide) (by decide) (by norm_num)⟩

/-- C2: on the no-binning path, a window the builder accepts yields exactly
one point per distinct amplitude value: the distinct values are the
descending sort of the deduplicated samples, the cumulative count of a value
is the number of samples greater than or equal to it, the emitted point is
its base-10 log pair, x-coordinates are strictly descending, and the number
of points equals the number of distinct values — strictly fewer than the
number of samples whenever duplicates are present. -/
theorem buildDistribution_spec (amps : List ℚ)
    (h1 : ∀ a ∈ amps, 0 < a) (h2 : 2 ≤ amps.dedup.length) :
    ∃ pts, buildDistribution amps = .ok pts
      ∧ pts.length = amps.dedup.length
      ∧ (¬ amps.Nodup → pts.length < amps.length)
      ∧ (distinctDesc amps).Sorted descOrder
      ∧ (distinctDesc amps).Perm amps.dedup
      ∧ (distinctDesc amps).Nodup
      ∧ pts = (distinctDesc amps).map
          (fun a : ℚ => (log10 (a : ℝ),
            log10 ((amps.filter (fun s => a ≤ s)).length : ℝ)))
      ∧ pts.Pairwise (fun p q => q.1 < p.1) := by
  refine ⟨buildPoints amps, buildDistribution_ok amps h1 h2,
    buildPoints_length amps, ?_, List.sorted_insertionSort descOrder amps.dedup,
    List.perm_insertionSort descOrder amps.dedup, ?_, rfl, ?_⟩
  · intro hnd
    have hsub : amps.dedup.Sublist amps := List.dedup_sublist amps
    rcases lt_or_eq_of_le hsub.length_le with h | h
    · rw [buildPoints_length]
      exact h
    · exact absurd ((hsub.eq_of_length h) ▸ List.nodup_dedup amps) hnd
  · exact ((List.perm_insertionSort descOrder amps.dedup).nodup_iff).mpr
      (List.nodup_dedup amps)
  · exact (buildPoints_pairwise amps h1).imp (fun h => h.1)

theorem buildDistribution_spec_witness :
    (∀ a ∈ ([10, 20, 20, 40] : List ℚ), 0 < a)
    ∧ 2 ≤ ([10, 20, 20, 40] : List ℚ).dedup.length
    ∧ ∃ pts, buildDistribution [10, 20, 20, 40] = .ok pts
        ∧ pts.length = ([10, 20, 20, 40] : List ℚ).dedup.length
        ∧ (¬ ([10, 20, 20, 40] : List ℚ).Nodup →
            pts.length < ([10, 20, 20, 40] : List ℚ).length)
        ∧ (distinctDesc [10, 20, 20, 40]).Sorted descOrder
        ∧ (distinctDesc [10, 20, 20, 40]).Perm ([10, 20, 20, 40] : List ℚ).dedup
        ∧ (distinctDesc [10, 20, 20, 40]).Nodup
        ∧ pts = (distinctDesc [10, 20, 20, 40]).map
            (fun a : ℚ => (log10 (a : ℝ),
              log10 ((([10, 20, 20, 40] : List ℚ).filter
                (fun s => a ≤ s)).length : ℝ)))
        ∧ pts.Pairwise (fun p q => q.1 < p.1) :=
  ⟨by decide, by decide,
    buildDistribution_spec [10, 20, 20, 40] (by decide) (by decide)⟩

end MassIndex
